import Mathlib

/-!
# blake-hash native binding (`src/addon.cc`)

A shallow embedding of the four wrapper classes that `CREATE_BLAKE_WRAPPER`
generates, of the module-level `Init`, and of the routines of `blake.h` they
forward to.  The routines of `blake.h` are not part of the translated file;
they enter the development as a parameter (`BlakeLib`).
-/

namespace BlakeHash

/-! ## Bytes, buffers and values -/

/-- One `unsigned char`. -/
abbrev Byte := Fin 256

/-- The macro argument `size` of `CREATE_BLAKE_WRAPPER`; the constructors are
listed in the order of the four instantiations. -/
inductive Variant where
  | b224
  | b256
  | b512
  | b384
  deriving DecidableEq, Repr

/-- The number written for the macro argument `size`. -/
def Variant.size : Variant → Nat
  | .b224 => 224
  | .b256 => 256
  | .b512 => 512
  | .b384 => 384

/-- A `Napi::Buffer<unsigned char>`: a fixed-length region of bytes. -/
structure Buffer where
  bytes : List Byte
  deriving DecidableEq, Repr

/-- The pointer `buf.Data()`: the bytes of the region, from offset 0. -/
def Buffer.Data (buf : Buffer) : List Byte := buf.bytes

/-- The element count `buf.Length()`. -/
def Buffer.Length (buf : Buffer) : Nat := buf.bytes.length

/-- The bytes a region of memory holds at the moment it is handed out by the
allocator, by offset.  The allocation does not clear the region: these are
whatever bytes were there before. -/
abbrev Memory := Nat → Byte

/-- `Napi::Buffer<unsigned char>::New(env, n)`: a new region of `n` bytes.
The region is not initialised: it holds the bytes `mem` that the memory held
when it was allocated, until something is stored in it. -/
def Buffer.New (mem : Memory) (n : Nat) : Buffer := ⟨(List.range n).map mem⟩

/-- The effect of a callee that stores `out` through the pointer `buf.Data()`,
starting at offset 0.  The region keeps its length: bytes of `out` beyond the
end of the region are not part of the buffer object. -/
def Buffer.store (buf : Buffer) (out : List Byte) : Buffer :=
  ⟨out.take buf.bytes.length ++ buf.bytes.drop out.length⟩

/-- A `Napi::Value` as far as the binding produces one. -/
inductive Value where
  | Undefined
  | Buffer (buf : BlakeHash.Buffer)
  | Object (handle : Nat)
  deriving DecidableEq, Repr

/-- The ways a call can fail.  `InvalidState` and `InvalidVariant` are the two
error kinds the specification names; `TypeError` is what the host raises when
a method is called on something that is not a live instance. -/
inductive BlakeError where
  | InvalidState
  | InvalidVariant
  | TypeError
  deriving DecidableEq, Repr

/-- What a method call hands back to the caller: a value, or a thrown error. -/
inductive Outcome where
  | ok (v : Value)
  | error (e : BlakeError)
  deriving DecidableEq, Repr

/-! ## The routines of `blake.h` -/

/-- The external interface `blake.h`, one family of routines per `size`:
the type `state##size` and the routines `blake##size##_init`,
`blake##size##_update` and `blake##size##_final`.  Each routine is a function
of its explicit arguments.  `blake_init` gives the state it leaves in the
pointed-to object; `blake_update` receives the state, the data pointer and the
length; `blake_final` gives the state it leaves and the bytes it stores through
its output pointer. -/
structure BlakeLib where
  state : Variant → Type
  blake_init : (size : Variant) → state size
  blake_update : (size : Variant) → state size → List Byte → Nat → state size
  blake_final : (size : Variant) → state size → state size × List Byte

/-! ## The wrapper class `BlakeWrapper##size` -/

/-- An object of class `BlakeWrapper##size`: its only per-instance member is
`state` (line 29); `out_size` is the second macro argument, fixed per class. -/
structure BlakeWrapper (L : BlakeLib) (size : Variant) where
  state : L.state size

namespace BlakeWrapper

variable {L : BlakeLib} {size : Variant}

/-- The constructor (lines 22-25): `blake##size##_init(&this->state)`. -/
def new (L : BlakeLib) (size : Variant) : BlakeWrapper L size :=
  ⟨L.blake_init size⟩

/-- The method `Update` (lines 30-34): forwards the data pointer and the length
of the argument buffer to `blake##size##_update` on `this->state` and returns
`Undefined`. -/
def Update (self : BlakeWrapper L size) (buf : Buffer) : BlakeWrapper L size × Outcome :=
  (⟨L.blake_update size self.state buf.Data buf.Length⟩, .ok Value.Undefined)

/-- The method `Digest` (lines 35-39): allocates a buffer of `out_size` bytes,
runs `blake##size##_final` on `this->state` with the buffer as output, and
returns the buffer.  `mem` is what the allocated region holds at line 36. -/
def Digest (out_size : Nat) (mem : Memory) (self : BlakeWrapper L size) :
    BlakeWrapper L size × Outcome :=
  let buf := Buffer.New mem out_size
  let r := L.blake_final size self.state
  (⟨r.1⟩, .ok (Value.Buffer (buf.store r.2)))

end BlakeWrapper

/-! ## The instantiations and the module `Init` -/

/-- The two methods a wrapper class registers. -/
inductive Method where
  | Update
  | Digest
  deriving DecidableEq, Repr

/-- `InstanceMethod(name, &BlakeWrapper##size::m)`. -/
def InstanceMethod (name : String) (m : Method) : String × Method := (name, m)

/-- What `DefineClass` is given, together with the two macro arguments that
select the routines and the output size of the class. -/
structure ClassDef where
  name : String
  methods : List (String × Method)
  size : Variant
  out_size : Nat
  deriving DecidableEq, Repr

/-- One wrapper class: the result of `CREATE_BLAKE_WRAPPER(size, out_size)`. -/
structure WrapperClass where
  size : Variant
  out_size : Nat
  deriving DecidableEq, Repr

/-- The class-generating instruction of lines 7-41. -/
def CREATE_BLAKE_WRAPPER (size : Variant) (out_size : Nat) : WrapperClass :=
  ⟨size, out_size⟩

/-- Line 43. -/
def BlakeWrapper224 : WrapperClass := CREATE_BLAKE_WRAPPER .b224 28
/-- Line 44. -/
def BlakeWrapper256 : WrapperClass := CREATE_BLAKE_WRAPPER .b256 32
/-- Line 45. -/
def BlakeWrapper512 : WrapperClass := CREATE_BLAKE_WRAPPER .b512 64
/-- Line 46. -/
def BlakeWrapper384 : WrapperClass := CREATE_BLAKE_WRAPPER .b384 48

/-- The static `Init` of a wrapper class (lines 10-21): the class is named
`"Blake" #size` and has the instance methods `update` and `digest`. -/
def WrapperClass.Init (c : WrapperClass) : ClassDef :=
  ⟨"Blake" ++ toString c.size.size,
   [InstanceMethod "update" Method.Update, InstanceMethod "digest" Method.Digest],
   c.size, c.out_size⟩

/-- The `exports` object: property names with the class bound to each. -/
abbrev Exports := List (String × ClassDef)

/-- `exports.Set(key, value)`: overwrite the property if present, else add it. -/
def Exports.Set (exports : Exports) (key : String) (value : ClassDef) : Exports :=
  if exports.any (fun p => p.1 == key) then
    exports.map (fun p => if p.1 == key then (key, value) else p)
  else exports ++ [(key, value)]

/-- The module `Init` (lines 48-54). -/
def Init (exports : Exports) : Exports :=
  let exports := exports.Set "Blake224" BlakeWrapper224.Init
  let exports := exports.Set "Blake256" BlakeWrapper256.Init
  let exports := exports.Set "Blake384" BlakeWrapper384.Init
  let exports := exports.Set "Blake512" BlakeWrapper512.Init
  exports

/-- The module object a host obtains by loading the addon. -/
def moduleExports : Exports := Init []

/-- The class bound to a property name of the module, if any. -/
def Exports.lookup (exports : Exports) (key : String) : Option ClassDef :=
  (exports.find? (fun p => p.1 == key)).map (fun p => p.2)

/-- The class generated for each `size`, as registered by its `Init`. -/
def classOf : Variant → ClassDef
  | .b224 => BlakeWrapper224.Init
  | .b256 => BlakeWrapper256.Init
  | .b512 => BlakeWrapper512.Init
  | .b384 => BlakeWrapper384.Init

/-! ## Instances held by the host -/

/-- A live wrapper object: the class it was constructed from and its members. -/
structure Instance (L : BlakeLib) where
  cls : ClassDef
  self : BlakeWrapper L cls.size

/-- The objects the host holds, addressed by position. -/
abbrev Runtime (L : BlakeLib) := List (Instance L)

/-- What the host can do with the module: construct through an exported
name, or call one of the two methods on an object.  A `digest` call comes with
the contents `mem` of the memory its output buffer is allocated in. -/
inductive Call where
  | create (name : String)
  | update (handle : Nat) (buf : Buffer)
  | digest (handle : Nat) (mem : Memory)

/-- The object a call is made on. -/
def Call.target : Call → Option Nat
  | .create _ => none
  | .update h _ => some h
  | .digest h _ => some h

/-- The effect of a method call on the object it is made on. -/
def Instance.apply {L : BlakeLib} (o : Instance L) : Call → Instance L
  | .create _ => o
  | .update _ buf => ⟨o.cls, (o.self.Update buf).1⟩
  | .digest _ mem => ⟨o.cls, (o.self.Digest o.cls.out_size mem).1⟩

/-- One call made by the host. -/
def Runtime.step {L : BlakeLib} (rt : Runtime L) : Call → Runtime L × Outcome
  | .create name =>
    match moduleExports.lookup name with
    | none => (rt, .error BlakeError.TypeError)
    | some cls => (rt ++ [⟨cls, BlakeWrapper.new L cls.size⟩], .ok (Value.Object rt.length))
  | .update h buf =>
    match rt[h]? with
    | none => (rt, .error BlakeError.TypeError)
    | some o =>
      let r := o.self.Update buf
      (rt.set h ⟨o.cls, r.1⟩, r.2)
  | .digest h mem =>
    match rt[h]? with
    | none => (rt, .error BlakeError.TypeError)
    | some o =>
      let r := o.self.Digest o.cls.out_size mem
      (rt.set h ⟨o.cls, r.1⟩, r.2)

/-- A sequence of calls, in order. -/
def Runtime.exec {L : BlakeLib} (rt : Runtime L) : List Call → Runtime L
  | [] => rt
  | c :: cs => (rt.step c).1.exec cs

/-- The wrapper after a sequence of `update` calls. -/
def feed {L : BlakeLib} {size : Variant} (w : BlakeWrapper L size) (chunks : List Buffer) :
    BlakeWrapper L size :=
  chunks.foldl (fun w b => (w.Update b).1) w

/-- What `digest` returns on a newly constructed object of class `cls` that
has received the `update` calls `chunks`, when its output buffer is allocated
in memory holding `mem`. -/
def hash (L : BlakeLib) (cls : ClassDef) (chunks : List Buffer) (mem : Memory) : Outcome :=
  ((feed (BlakeWrapper.new L cls.size) chunks).Digest cls.out_size mem).2

/-! ## The digest in terms of the external routines alone

The two definitions below do not mention the wrapper.  They say what the
digest of a sequence of chunks ought to be: the bytes the external final
routine stores after the external update routine has been given every chunk in
order, starting from the state the external init routine leaves. -/

/-- The state of the external routines after `init` and one `update` per
chunk, each with all the bytes of the chunk and its full length. -/
def libState (L : BlakeLib) (size : Variant) (chunks : List Buffer) : L.state size :=
  chunks.foldl (fun s b => L.blake_update size s b.bytes b.bytes.length) (L.blake_init size)

/-- The first `out_size` bytes the external final routine stores on
`libState`. -/
def libDigest (L : BlakeLib) (cls : ClassDef) (chunks : List Buffer) : List Byte :=
  ((L.blake_final cls.size (libState L cls.size chunks)).2).take cls.out_size

/-- Modelled from the spec: the contract of the missing `blake##size##_final`
(section 4.2 step 5 and section 6: the digest it returns has the fixed length
of the variant), as far as the wrapper depends on it: run after the chunks
`chunks`, the routine stores at least the `out_size` bytes of the output
buffer. -/
def storesDigest (L : BlakeLib) (cls : ClassDef) (chunks : List Buffer) : Prop :=
  cls.out_size ≤ ((L.blake_final cls.size (libState L cls.size chunks)).2).length

instance (L : BlakeLib) (cls : ClassDef) (chunks : List Buffer) :
    Decidable (storesDigest L cls chunks) :=
  inferInstanceAs (Decidable (_ ≤ _))

/-- The outcomes of a sequence of calls, in order. -/
def Runtime.outcomes {L : BlakeLib} (rt : Runtime L) : List Call → List Outcome
  | [] => []
  | c :: cs => (rt.step c).2 :: Runtime.outcomes (rt.step c).1 cs

/-! ## The hash engine behind `blake.h`

The implementation of the routines of `blake.h` is not among the translated
sources.  The definitions of this section follow the description the
specification gives of it (sections 3 and 4): an engine state with a chaining
value, a buffer of less than one block, a byte counter and a finalized flag.
The compression function and the initial values are left to the published
BLAKE specification there, and are parameters here (`Core`). -/

/-- Modelled from the spec: the word width a variant fixes (the source of
`blake.h` is missing): 32 bits for 224/256, 64 bits for 384/512. -/
def wordBits : Variant → Nat
  | .b224 => 32
  | .b256 => 32
  | .b512 => 64
  | .b384 => 64

/-- Modelled from the spec: the block size a variant fixes (the source of
`blake.h` is missing): 64 bytes for the 32-bit variants, 128 bytes for the
64-bit ones. -/
def blockSize : Variant → Nat
  | .b224 => 64
  | .b256 => 64
  | .b512 => 128
  | .b384 => 128

/-- Modelled from the spec: the digest length a variant fixes (the source of
`blake.h` is missing): 28/32/48/64 bytes for 224/256/384/512. -/
def digestLength : Variant → Nat
  | .b224 => 28
  | .b256 => 32
  | .b512 => 64
  | .b384 => 48

/-- Modelled from the spec: the bytes reserved for the length in the last
block (the source of `blake.h` is missing): "8 or 16 bytes, per variant",
read as 8 for the 64-byte block and 16 for the 128-byte block. -/
def lengthFieldSize : Variant → Nat
  | .b224 => 8
  | .b256 => 8
  | .b512 => 16
  | .b384 => 16

/-- Modelled from the spec: the CompressionCore and the initialization
constants (the source of `blake.h` is missing, and the specification leaves
rounds, rotations, permutation and IV to the published BLAKE specification).
`compress v h block counter final` is the next chaining value. -/
structure Core where
  iv : Variant → List Nat
  compress : Variant → List Nat → List Byte → Nat → Bool → List Nat

/-- Modelled from the spec: the EngineState of section 3 (the source of
`blake.h` is missing). -/
structure EngineState where
  variant : Variant
  chaining : List Nat
  buffer : List Byte
  counter : Nat
  finalized : Bool
  deriving DecidableEq, Repr

namespace HashEngine

/-- Modelled from the spec: `init(variant)` of section 4.1 (the source of
`blake.h` is missing): chaining value set to the IV, zero-length buffer, zero
counter, finalized = false. -/
def init (P : Core) (v : Variant) : EngineState :=
  ⟨v, P.iv v, [], 0, false⟩

/-- Modelled from the spec: the loop of `update` in section 4.1 (the source of
`blake.h` is missing): while the buffer holds at least one block, extract one
full block, advance the counter by the block size and compress.  The first
argument bounds the number of iterations. -/
def drain (P : Core) : Nat → EngineState → EngineState
  | 0, st => st
  | fuel + 1, st =>
    if blockSize st.variant ≤ st.buffer.length then
      drain P fuel
        ⟨st.variant,
         P.compress st.variant st.chaining (st.buffer.take (blockSize st.variant))
           (st.counter + blockSize st.variant) false,
         st.buffer.drop (blockSize st.variant),
         st.counter + blockSize st.variant,
         st.finalized⟩
    else st

/-- Modelled from the spec: the state change of `update` on a live state
(the source of `blake.h` is missing): append the bytes to the buffer, then run
the loop.  Every iteration removes a block of at least one byte, so the length
of the buffer bounds the number of iterations. -/
def absorb (P : Core) (st : EngineState) (bytes : List Byte) : EngineState :=
  drain P (st.buffer.length + bytes.length)
    ⟨st.variant, st.chaining, st.buffer ++ bytes, st.counter, st.finalized⟩

/-- Modelled from the spec: `update(state, bytes)` of section 4.1 (the source
of `blake.h` is missing): fails with `InvalidState` if called after finalize. -/
def update (P : Core) (st : EngineState) (bytes : List Byte) : Except BlakeError EngineState :=
  if st.finalized then .error BlakeError.InvalidState else .ok (absorb P st bytes)

/-- Modelled from the spec: a big-endian integer of `n` bytes (the source of
`blake.h` is missing). -/
def bigEndian : Nat → Nat → List Byte
  | 0, _ => []
  | n + 1, x => Fin.ofNat (x / 256 ^ n) :: bigEndian n x

/-- Modelled from the spec: the PaddingFinalizer of section 4.2, steps 1-4
(the source of `blake.h` is missing).  The marker 0x80 is appended to the
tail; if marker and length field fit in one block, zeros fill the gap and the
block is compressed with the final flag; otherwise the block is filled with
zeros and compressed without the flag, and a second block of zeros and the
length field is compressed with the flag.  The finalizer is given the tail and
the total bit length only; the counter it hands to the compression is that
bit length. -/
def pad (P : Core) (v : Variant) (h : List Nat) (tail : List Byte) (bits : Nat) : List Nat :=
  let marked := tail ++ [0x80]
  let room := blockSize v - lengthFieldSize v
  let len := bigEndian (lengthFieldSize v) bits
  if marked.length ≤ room then
    P.compress v h (marked ++ List.replicate (room - marked.length) 0 ++ len) bits true
  else
    let h1 := P.compress v h (marked ++ List.replicate (blockSize v - marked.length) 0) bits false
    P.compress v h1 (List.replicate room 0 ++ len) bits true

/-- Modelled from the spec: step 5 of section 4.2 (the source of `blake.h` is
missing): the first `digestLength` bytes of the chaining value, every word
big-endian. -/
def serialize (v : Variant) (h : List Nat) : List Byte :=
  ((h.map (fun w => bigEndian (wordBits v / 8) (w % 2 ^ wordBits v))).flatten).take
    (digestLength v)

/-- Modelled from the spec: `finalize(state)` of section 4.1 (the source of
`blake.h` is missing): fails with `InvalidState` if already finalized;
otherwise the total bit length is computed from counter and buffered length,
the PaddingFinalizer runs on the buffered bytes, finalized is set, and the
digest is returned. -/
def finalize (P : Core) (st : EngineState) : Except BlakeError (EngineState × List Byte) :=
  if st.finalized then .error BlakeError.InvalidState
  else
    let bits := (st.counter + st.buffer.length) * 8
    let h := pad P st.variant st.chaining st.buffer bits
    .ok (⟨st.variant, st.chaining, st.buffer, st.counter, true⟩, serialize st.variant h)

end HashEngine

/-- Modelled from the spec: the routines of `blake.h` as the engine of section
4.1 provides them (the source of `blake.h` is missing).  The routines return
nothing to the wrapper: where the engine fails, the state is left as it is and
nothing is stored. -/
def engineLib (P : Core) : BlakeLib where
  state := fun _ => EngineState
  blake_init := fun v => HashEngine.init P v
  blake_update := fun _ st data len =>
    match HashEngine.update P st (data.take len) with
    | .ok st1 => st1
    | .error _ => st
  blake_final := fun _ st =>
    match HashEngine.finalize P st with
    | .ok r => r
    | .error _ => (st, [])

/-- A concrete `Core` on which the engine can be run: the initial value is
the word index, and the compression adds the sum of the block bytes, the
counter and the flag to every word. -/
def sampleCore : Core where
  iv := fun _ => List.range 8
  compress := fun v h block counter final =>
    h.map (fun w =>
      (w * 31 + (block.map Fin.val).sum + counter + (if final then 1 else 0)) % 2 ^ wordBits v)

/-! ## A small concrete library

`sampleLib` instantiates `BlakeLib` so that the wrapper can be run on explicit
inputs.  Its state is the list of bytes absorbed so far; `blake_final` appends
an end marker to the state and stores the last `size / 8` bytes absorbed,
zero-filled at the front. -/

/-- The last `n` bytes of `s`, zero-filled at the front. -/
def lastBytes (n : Nat) (s : List Byte) : List Byte :=
  List.replicate (n - s.length) 0 ++ s.drop (s.length - n)

/-- A concrete `BlakeLib`. -/
def sampleLib : BlakeLib where
  state := fun _ => List Byte
  blake_init := fun _ => []
  blake_update := fun _ s data len => s ++ data.take len
  blake_final := fun size s => (s ++ [0x80], lastBytes (size.size / 8) s)

/-- A concrete `BlakeLib` whose final routine stores nothing: what `digest`
returns over it is the allocated memory as it was. -/
def silentLib : BlakeLib where
  state := fun _ => Unit
  blake_init := fun _ => ()
  blake_update := fun _ _ _ _ => ()
  blake_final := fun _ _ => ((), [])

/-- Memory in which every byte is 0xAA. -/
def staleA : Memory := fun _ => 0xAA

/-- Memory in which the byte at offset `i` is `i` modulo 256. -/
def staleB : Memory := fun i => Fin.ofNat i

/-- Three objects over `sampleLib`: two of class `Blake256`, one of class
`Blake512`, as the host obtains them from the module. -/
def sampleRuntime : Runtime sampleLib :=
  Runtime.exec [] [Call.create "Blake256", Call.create "Blake256", Call.create "Blake512"]

/-- The state member of object `h` of a runtime over `sampleLib`. -/
def sampleState (rt : Runtime sampleLib) (h : Nat) : Option (List Byte) :=
  rt[h]?.map (fun o => (o.self.state : List Byte))


/-! ## Buffers keep their length -/

theorem Buffer.Length_New (mem : Memory) (n : Nat) : (Buffer.New mem n).Length = n := by
  simp [Buffer.New, Buffer.Length]

/-- A callee that stores at least as many bytes as the region has overwrites
all of it: nothing of the previous contents is left. -/
theorem Buffer.store_full (buf : Buffer) (out : List Byte) (h : buf.Length ≤ out.length) :
    buf.store out = ⟨out.take buf.Length⟩ := by
  simp only [Buffer.store, Buffer.Length] at h ⊢
  rw [List.drop_eq_nil_of_le h, List.append_nil]

theorem Buffer.Length_store (buf : Buffer) (out : List Byte) :
    (buf.store out).Length = buf.Length := by
  simp only [Buffer.store, Buffer.Length, List.length_append, List.length_take, List.length_drop]
  omega

/-! ## How one call acts on the objects of the host -/

theorem Runtime.step_get_other {L : BlakeLib} (rt : Runtime L) (c : Call) (k : Nat)
    (o : Instance L) (hc : c.target ≠ some k) (ho : rt[k]? = some o) :
    (Runtime.step rt c).1[k]? = some o := by
  have hk : k < rt.length := by
    rcases List.getElem?_eq_some_iff.mp ho with ⟨hlt, _⟩
    exact hlt
  cases c with
  | create name =>
    simp only [Runtime.step]
    split
    · exact ho
    · simp only [List.getElem?_append_left hk]
      exact ho
  | update h buf =>
    have hne : h ≠ k := fun e => hc (by simp [Call.target, e])
    simp only [Runtime.step]
    split
    · exact ho
    · simp only [List.getElem?_set_ne hne]
      exact ho
  | digest h =>
    have hne : h ≠ k := fun e => hc (by simp [Call.target, e])
    simp only [Runtime.step]
    split
    · exact ho
    · simp only [List.getElem?_set_ne hne]
      exact ho

theorem Runtime.step_get_self {L : BlakeLib} (rt : Runtime L) (c : Call) (k : Nat)
    (o : Instance L) (hc : c.target = some k) (ho : rt[k]? = some o) :
    (Runtime.step rt c).1[k]? = some (o.apply c) := by
  have hk : k < rt.length := by
    rcases List.getElem?_eq_some_iff.mp ho with ⟨hlt, _⟩
    exact hlt
  cases c with
  | create name => simp [Call.target] at hc
  | update h buf =>
    have he : h = k := by simpa [Call.target] using hc
    subst he
    simp only [Runtime.step, ho, Instance.apply]
    simp [List.getElem?_set_self, hk]
  | digest h =>
    have he : h = k := by simpa [Call.target] using hc
    subst he
    simp only [Runtime.step, ho, Instance.apply]
    simp [List.getElem?_set_self, hk]

/-- The calls of a trace that are made on object `k`. -/
theorem Runtime.exec_get {L : BlakeLib} (tr : List Call) (rt : Runtime L) (k : Nat)
    (o : Instance L) (ho : rt[k]? = some o) :
    (Runtime.exec rt tr)[k]? =
      some ((tr.filter (fun c => decide (c.target = some k))).foldl Instance.apply o) := by
  induction tr generalizing rt o with
  | nil => simpa [Runtime.exec] using ho
  | cons c cs ih =>
    by_cases hc : c.target = some k
    · simp only [Runtime.exec, List.filter_cons, hc, decide_True, if_true, List.foldl_cons]
      exact ih _ _ (Runtime.step_get_self rt c k o hc ho)
    · simp only [Runtime.exec, List.filter_cons, hc, decide_False, Bool.false_eq_true, if_false]
      exact ih _ _ (Runtime.step_get_other rt c k o hc ho)

theorem Instance.foldl_update {L : BlakeLib} (k : Nat) (chunks : List Buffer)
    (cls : ClassDef) (w : BlakeWrapper L cls.size) :
    (chunks.map (Call.update k)).foldl Instance.apply (⟨cls, w⟩ : Instance L) =
      ⟨cls, feed w chunks⟩ := by
  induction chunks generalizing w with
  | nil => rfl
  | cons b bs ih =>
    simp only [List.map_cons, List.foldl_cons, Instance.apply, feed]
    exact ih _


/-! ## The engine loop -/

theorem blockSize_pos (v : Variant) : 0 < blockSize v := by
  cases v <;> decide

namespace HashEngine

theorem drain_variant (P : Core) (fuel : Nat) (st : EngineState) :
    (drain P fuel st).variant = st.variant := by
  induction fuel generalizing st with
  | zero => rfl
  | succ n ih =>
    simp only [drain]
    split
    · rw [ih]
    · rfl

theorem drain_finalized (P : Core) (fuel : Nat) (st : EngineState) :
    (drain P fuel st).finalized = st.finalized := by
  induction fuel generalizing st with
  | zero => rfl
  | succ n ih =>
    simp only [drain]
    split
    · rw [ih]
    · rfl

/-- With fuel for every byte of the buffer the loop runs to its exit: less
than one block is left. -/
theorem drain_done (P : Core) (fuel : Nat) (st : EngineState)
    (hf : st.buffer.length ≤ fuel) :
    (drain P fuel st).buffer.length < blockSize (drain P fuel st).variant := by
  induction fuel generalizing st with
  | zero =>
    have h0 : st.buffer.length = 0 := Nat.le_zero.mp hf
    simp only [drain, h0]
    exact blockSize_pos _
  | succ n ih =>
    simp only [drain]
    split
    · rename_i hge
      apply ih
      have hp := blockSize_pos st.variant
      simp only [List.length_drop]
      omega
    · rename_i hlt
      exact Nat.lt_of_not_le hlt

/-- Any two amounts of fuel that cover the buffer give the same result. -/
theorem drain_fuel (P : Core) (f1 f2 : Nat) (st : EngineState)
    (h1 : st.buffer.length ≤ f1) (h2 : st.buffer.length ≤ f2) :
    drain P f1 st = drain P f2 st := by
  induction f1 generalizing f2 st with
  | zero =>
    have h0 : st.buffer.length = 0 := Nat.le_zero.mp h1
    have hp := blockSize_pos st.variant
    cases f2 with
    | zero => rfl
    | succ m =>
      simp only [drain]
      rw [if_neg (by omega)]
  | succ n ih =>
    have hp := blockSize_pos st.variant
    by_cases hge : blockSize st.variant ≤ st.buffer.length
    · cases f2 with
      | zero => omega
      | succ m =>
        simp only [drain, if_pos hge]
        apply ih
        · simp only [List.length_drop]; omega
        · simp only [List.length_drop]; omega
    · cases f2 with
      | zero => simp only [drain, if_neg hge]
      | succ m => simp only [drain, if_neg hge]

/-- Running the loop on a buffer followed by more bytes is running it on the
buffer first and on what is left followed by the bytes afterwards. -/
theorem drain_append (P : Core) (f1 : Nat) (st : EngineState) (x : List Byte) (f f2 : Nat)
    (h1 : st.buffer.length ≤ f1)
    (hf : st.buffer.length + x.length ≤ f)
    (hf2 : (drain P f1 st).buffer.length + x.length ≤ f2) :
    drain P f ⟨st.variant, st.chaining, st.buffer ++ x, st.counter, st.finalized⟩ =
      drain P f2 ⟨(drain P f1 st).variant, (drain P f1 st).chaining,
        (drain P f1 st).buffer ++ x, (drain P f1 st).counter, (drain P f1 st).finalized⟩ := by
  induction f1 generalizing st f f2 with
  | zero =>
    simp only [drain] at hf2 ⊢
    apply drain_fuel
    · simpa using hf
    · simpa using hf2
  | succ n ih =>
    have hp := blockSize_pos st.variant
    by_cases hge : blockSize st.variant ≤ st.buffer.length
    · simp only [drain, if_pos hge] at hf2 ⊢
      cases f with
      | zero => omega
      | succ m =>
        have hge2 : blockSize st.variant ≤ (st.buffer ++ x).length := by
          simp only [List.length_append]; omega
        simp only [drain, if_pos hge2]
        rw [List.take_append_of_le_length hge, List.drop_append_of_le_length hge]
        exact ih
          ⟨st.variant,
           P.compress st.variant st.chaining (st.buffer.take (blockSize st.variant))
             (st.counter + blockSize st.variant) false,
           st.buffer.drop (blockSize st.variant),
           st.counter + blockSize st.variant,
           st.finalized⟩ m f2
          (by simp only [List.length_drop]; omega)
          (by simp only [List.length_drop]; omega)
          hf2
    · simp only [drain, if_neg hge] at hf2 ⊢
      apply drain_fuel
      · simpa using hf
      · simpa using hf2

theorem absorb_finalized (P : Core) (st : EngineState) (x : List Byte) :
    (absorb P st x).finalized = st.finalized := by
  simp [absorb, drain_finalized]

theorem absorb_variant (P : Core) (st : EngineState) (x : List Byte) :
    (absorb P st x).variant = st.variant := by
  simp [absorb, drain_variant]

theorem absorb_done (P : Core) (st : EngineState) (x : List Byte) :
    (absorb P st x).buffer.length < blockSize st.variant := by
  have h := drain_done P (st.buffer.length + x.length)
    ⟨st.variant, st.chaining, st.buffer ++ x, st.counter, st.finalized⟩ (by simp)
  rw [drain_variant] at h
  exact h

theorem absorb_nil (P : Core) (st : EngineState)
    (hb : st.buffer.length < blockSize st.variant) : absorb P st [] = st := by
  cases st with
  | mk v h buf c fin =>
    simp only [absorb, List.append_nil, List.length_nil, Nat.add_zero]
    cases hl : buf.length with
    | zero => rfl
    | succ n =>
      simp only [drain]
      rw [if_neg]
      simp only at hb
      omega

theorem absorb_absorb (P : Core) (st : EngineState) (a b : List Byte) :
    absorb P (absorb P st a) b = absorb P st (a ++ b) := by
  have h := drain_append P (st.buffer.length + a.length)
    ⟨st.variant, st.chaining, st.buffer ++ a, st.counter, st.finalized⟩ b
    (st.buffer.length + (a ++ b).length)
    ((absorb P st a).buffer.length + b.length)
    (by simp) (by simp; omega) (by simp [absorb])
  simp only [absorb]
  simp only [absorb] at h
  rw [List.append_assoc] at h
  rw [h]

theorem foldl_absorb (P : Core) (chunks : List (List Byte)) (st : EngineState)
    (hb : st.buffer.length < blockSize st.variant) :
    chunks.foldl (absorb P) st = absorb P st chunks.flatten := by
  induction chunks generalizing st with
  | nil => simp [absorb_nil P st hb]
  | cons c cs ih =>
    simp only [List.foldl_cons, List.flatten_cons]
    rw [ih, absorb_absorb]
    rw [absorb_variant]
    exact absorb_done P st c

end HashEngine


/-! ## The wrapper over the engine -/

theorem engine_feed (P : Core) (size : Variant) (chunks : List Buffer)
    (w : BlakeWrapper (engineLib P) size)
    (hf : EngineState.finalized w.state = false) :
    (feed w chunks).state = (chunks.map Buffer.bytes).foldl (HashEngine.absorb P) w.state := by
  induction chunks generalizing w with
  | nil => rfl
  | cons b bs ih =>
    have hst : (w.Update b).1.state = HashEngine.absorb P w.state b.bytes := by
      simp [BlakeWrapper.Update, engineLib, HashEngine.update, hf, Buffer.Data, Buffer.Length]
    have hf2 : EngineState.finalized (w.Update b).1.state = false := by
      rw [hst, HashEngine.absorb_finalized]
      exact hf
    simp only [feed, List.foldl_cons, List.map_cons]
    have := ih (w.Update b).1 hf2
    simp only [feed] at this
    rw [this, hst]

theorem engine_feed_new (P : Core) (size : Variant) (chunks : List Buffer) :
    (feed (BlakeWrapper.new (engineLib P) size) chunks).state =
      HashEngine.absorb P (HashEngine.init P size) (chunks.map Buffer.bytes).flatten := by
  rw [engine_feed P size chunks _ rfl]
  exact HashEngine.foldl_absorb P _ _ (blockSize_pos size)


/-! ## The wrapper against the external routines -/

theorem feed_state {L : BlakeLib} {size : Variant} (chunks : List Buffer)
    (w : BlakeWrapper L size) :
    (feed w chunks).state =
      chunks.foldl (fun s b => L.blake_update size s b.bytes b.bytes.length) w.state := by
  induction chunks generalizing w with
  | nil => rfl
  | cons b bs ih =>
    simp only [feed, List.foldl_cons]
    exact ih (w.Update b).1

theorem feed_new_state (L : BlakeLib) (size : Variant) (chunks : List Buffer) :
    (feed (BlakeWrapper.new L size) chunks).state = libState L size chunks :=
  feed_state chunks (BlakeWrapper.new L size)

/-- Where the external final routine stores the whole digest, what `digest`
returns does not depend on the memory the buffer was allocated in. -/
theorem hash_eq_libDigest (L : BlakeLib) (cls : ClassDef) (chunks : List Buffer)
    (mem : Memory) (hfull : storesDigest L cls chunks) :
    hash L cls chunks mem = Outcome.ok (Value.Buffer ⟨libDigest L cls chunks⟩) := by
  have hlen : (Buffer.New mem cls.out_size).Length ≤
      ((L.blake_final cls.size (libState L cls.size chunks)).2).length := by
    rw [Buffer.Length_New]
    exact hfull
  simp only [hash, BlakeWrapper.Digest, feed_new_state]
  rw [Buffer.store_full _ _ hlen, Buffer.Length_New]
  rfl

/-- Over a library whose final routine stores nothing, `digest` returns the
memory as it was allocated: equal inputs can give different bytes. -/
theorem unstored_bytes_visible :
    hash silentLib (classOf .b224) [] staleA ≠ hash silentLib (classOf .b224) [] staleB := by
  decide

theorem Runtime.digest_outcome {L : BlakeLib} (rt : Runtime L) (k : Nat) (o : Instance L)
    (mem : Memory) (ho : rt[k]? = some o) :
    (Runtime.step rt (Call.digest k mem)).2 = (o.self.Digest o.cls.out_size mem).2 := by
  simp only [Runtime.step, ho]

/-! ## Claims -/

/-- C1: for every variant and every sequence of `update` calls made on a new
hasher (including none), `digest` returns a buffer, and its length is exactly
28, 32, 48 and 64 bytes for 224, 256, 384 and 512, whatever the external
routines do and whatever the allocated memory held. -/
theorem digest_length (L : BlakeLib) (v : Variant) (chunks : List Buffer) (mem : Memory) :
    ∃ d : Buffer, hash L (classOf v) chunks mem = Outcome.ok (Value.Buffer d) ∧
      d.Length = (match v with
        | .b224 => 28
        | .b256 => 32
        | .b384 => 48
        | .b512 => 64) := by
  refine ⟨(Buffer.New mem (classOf v).out_size).store
    (L.blake_final (classOf v).size (feed (BlakeWrapper.new L (classOf v).size) chunks).state).2,
    rfl, ?_⟩
  rw [Buffer.Length_store, Buffer.Length_New]
  cases v <;> rfl

/-- C2: over the engine the specification describes, the digest of a new
hasher depends on the concatenation of its `update` inputs only: two chunk
sequences with the same concatenation give the same digest, and in particular
`update(a); update(b)` gives the digest of `update(a ++ b)`; every `update`
runs its loop to the exit, so less than one block stays buffered.  The two
output buffers are compared on equal allocated memory; where the final routine
stores the whole digest, the digests agree on any two memories. -/
theorem chunking_independent (P : Core) (v : Variant) (cs ds : List Buffer)
    (h : (cs.map Buffer.bytes).flatten = (ds.map Buffer.bytes).flatten) :
    (∀ mem : Memory,
      hash (engineLib P) (classOf v) cs mem = hash (engineLib P) (classOf v) ds mem) ∧
    (∀ (a b : Buffer) (mem : Memory), hash (engineLib P) (classOf v) [a, b] mem =
      hash (engineLib P) (classOf v) [⟨a.bytes ++ b.bytes⟩] mem) ∧
    (EngineState.buffer (feed (BlakeWrapper.new (engineLib P) (classOf v).size) cs).state).length
      < blockSize (classOf v).size ∧
    (storesDigest (engineLib P) (classOf v) cs → ∀ m1 m2 : Memory,
      hash (engineLib P) (classOf v) cs m1 = hash (engineLib P) (classOf v) ds m2) := by
  have key : ∀ (xs ys : List Buffer) (mem : Memory),
      (xs.map Buffer.bytes).flatten = (ys.map Buffer.bytes).flatten →
      hash (engineLib P) (classOf v) xs mem = hash (engineLib P) (classOf v) ys mem := by
    intro xs ys mem hxy
    have e : (feed (BlakeWrapper.new (engineLib P) (classOf v).size) xs) =
        (feed (BlakeWrapper.new (engineLib P) (classOf v).size) ys) := by
      have e1 := engine_feed_new P (classOf v).size xs
      have e2 := engine_feed_new P (classOf v).size ys
      rw [hxy] at e1
      cases hx : feed (BlakeWrapper.new (engineLib P) (classOf v).size) xs with
      | mk sx =>
        cases hy : feed (BlakeWrapper.new (engineLib P) (classOf v).size) ys with
        | mk sy =>
          rw [hx] at e1
          rw [hy] at e2
          simp only at e1 e2
          rw [e1, e2]
    simp only [hash, e]
  refine ⟨fun mem => key cs ds mem h, ?_, ?_, ?_⟩
  · intro a b mem
    apply key
    simp
  · rw [engine_feed_new]
    exact HashEngine.absorb_done P _ _
  · intro hfull m1 m2
    rw [← key cs ds m2 h, hash_eq_libDigest _ _ _ m1 hfull, hash_eq_libDigest _ _ _ m2 hfull]

/-- Witness of C2: a 60-byte chunk followed by a 10-byte chunk against the
single 70-byte chunk, for BLAKE-256 over `sampleCore`, the two output buffers
allocated in different memory. -/
theorem chunking_independent_witness :
    (([⟨List.replicate 60 7⟩, ⟨List.replicate 10 9⟩] : List Buffer).map Buffer.bytes).flatten =
      (([⟨List.replicate 60 7 ++ List.replicate 10 9⟩] : List Buffer).map Buffer.bytes).flatten ∧
    hash (engineLib sampleCore) (classOf .b256)
        [⟨List.replicate 60 7⟩, ⟨List.replicate 10 9⟩] staleA =
      hash (engineLib sampleCore) (classOf .b256)
        [⟨List.replicate 60 7 ++ List.replicate 10 9⟩] staleB :=
  ⟨by decide,
   (chunking_independent sampleCore .b256 [⟨List.replicate 60 7⟩, ⟨List.replicate 10 9⟩]
      [⟨List.replicate 60 7 ++ List.replicate 10 9⟩] (by decide)).2.2.2 (by decide)
      staleA staleB⟩

/-- C6: the module exports exactly the four names `Blake224`, `Blake256`,
`Blake384` and `Blake512`; the class bound to `Blake<N>` uses the routines and
state of variant N, has output size N/8 (28, 32, 48, 64) and registers exactly
the methods `update` and `digest`; a name outside the four constructs
nothing. -/
theorem module_exports :
    moduleExports =
      [("Blake224", classOf .b224), ("Blake256", classOf .b256),
       ("Blake384", classOf .b384), ("Blake512", classOf .b512)] ∧
    (∀ v : Variant,
      (classOf v).name = "Blake" ++ toString v.size ∧
      moduleExports.lookup ("Blake" ++ toString v.size) = some (classOf v) ∧
      (classOf v).size = v ∧
      (classOf v).out_size = v.size / 8 ∧
      (classOf v).methods = [("update", Method.Update), ("digest", Method.Digest)]) ∧
    ((classOf .b224).out_size = 28 ∧ (classOf .b256).out_size = 32 ∧
      (classOf .b384).out_size = 48 ∧ (classOf .b512).out_size = 64) ∧
    (∀ (name : String) (cls : ClassDef), moduleExports.lookup name = some cls →
      ∃ v : Variant, cls = classOf v ∧ name = "Blake" ++ toString v.size) ∧
    (∀ (L : BlakeLib) (rt : Runtime L) (name : String),
      name ∉ ["Blake224", "Blake256", "Blake384", "Blake512"] →
      Runtime.step rt (Call.create name) = (rt, Outcome.error BlakeError.TypeError)) ∧
    (∀ (L : BlakeLib) (rt : Runtime L) (v : Variant),
      Runtime.step rt (Call.create ("Blake" ++ toString v.size)) =
        (rt ++ [⟨classOf v, BlakeWrapper.new L (classOf v).size⟩],
          Outcome.ok (Value.Object rt.length))) := by
  have hlook : ∀ v : Variant,
      moduleExports.lookup ("Blake" ++ toString v.size) = some (classOf v) := by
    intro v; cases v <;> decide
  have hnone : ∀ name : String, name ∉ ["Blake224", "Blake256", "Blake384", "Blake512"] →
      moduleExports.lookup name = none := by
    intro name hn
    simp only [List.mem_cons, List.mem_singleton, not_or, List.not_mem_nil, or_false] at hn
    obtain ⟨h1, h2, h3, h4⟩ := hn
    have e : moduleExports =
        [("Blake224", classOf .b224), ("Blake256", classOf .b256),
         ("Blake384", classOf .b384), ("Blake512", classOf .b512)] := by decide
    have b1 : ("Blake224" == name) = false := by simpa using Ne.symm h1
    have b2 : ("Blake256" == name) = false := by simpa using Ne.symm h2
    have b3 : ("Blake384" == name) = false := by simpa using Ne.symm h3
    have b4 : ("Blake512" == name) = false := by simpa using Ne.symm h4
    rw [e]
    simp only [Exports.lookup, List.find?, b1, b2, b3, b4, Option.map_none']
  refine ⟨by decide, ?_, by decide, ?_, ?_, ?_⟩
  · intro v
    refine ⟨?_, hlook v, ?_, ?_, ?_⟩ <;> cases v <;> decide
  · intro name cls hl
    by_cases hn : name ∈ ["Blake224", "Blake256", "Blake384", "Blake512"]
    · simp only [List.mem_cons, List.mem_singleton, List.not_mem_nil, or_false] at hn
      rcases hn with rfl | rfl | rfl | rfl
      · exact ⟨.b224, by
          have := hlook .b224
          have e : ("Blake" ++ toString Variant.b224.size) = "Blake224" := by decide
          rw [e, hl] at this
          exact Option.some.inj this, by decide⟩
      · exact ⟨.b256, by
          have := hlook .b256
          have e : ("Blake" ++ toString Variant.b256.size) = "Blake256" := by decide
          rw [e, hl] at this
          exact Option.some.inj this, by decide⟩
      · exact ⟨.b384, by
          have := hlook .b384
          have e : ("Blake" ++ toString Variant.b384.size) = "Blake384" := by decide
          rw [e, hl] at this
          exact Option.some.inj this, by decide⟩
      · exact ⟨.b512, by
          have := hlook .b512
          have e : ("Blake" ++ toString Variant.b512.size) = "Blake512" := by decide
          rw [e, hl] at this
          exact Option.some.inj this, by decide⟩
    · rw [hnone name hn] at hl
      cases hl
  · intro L rt name hn
    simp only [Runtime.step, hnone name hn]
  · intro L rt v
    simp only [Runtime.step, hlook v]


/-- C5: two newly constructed hashers of the same variant that receive the
same sequence of `update` calls, interleaved in any way with calls on any
objects of the host, return the same digest, whatever memory their two output
buffers are allocated in, provided the external final routine stores the whole
digest.  That digest is `libDigest`: a function of the variant, the inputs
and the external routines only. -/
theorem same_input_same_digest (L : BlakeLib) (v : Variant) (chunks : List Buffer)
    (rt : Runtime L) (tr : List Call) (h1 h2 : Nat) (m1 m2 : Memory)
    (hf1 : rt[h1]? = some ⟨classOf v, BlakeWrapper.new L (classOf v).size⟩)
    (hf2 : rt[h2]? = some ⟨classOf v, BlakeWrapper.new L (classOf v).size⟩)
    (hc1 : tr.filter (fun c => decide (c.target = some h1)) = chunks.map (Call.update h1))
    (hc2 : tr.filter (fun c => decide (c.target = some h2)) = chunks.map (Call.update h2))
    (hfull : storesDigest L (classOf v) chunks) :
    (Runtime.step (Runtime.exec rt tr) (Call.digest h1 m1)).2 =
      (Runtime.step (Runtime.exec rt tr) (Call.digest h2 m2)).2 ∧
    (Runtime.step (Runtime.exec rt tr) (Call.digest h1 m1)).2 =
      Outcome.ok (Value.Buffer ⟨libDigest L (classOf v) chunks⟩) ∧
    (Runtime.step (Runtime.exec rt tr) (Call.digest h2 m2)).2 =
      Outcome.ok (Value.Buffer ⟨libDigest L (classOf v) chunks⟩) ∧
    libDigest L (classOf v) chunks =
      ((L.blake_final v (chunks.foldl
        (fun s b => L.blake_update v s b.bytes b.bytes.length) (L.blake_init v))).2).take
        (v.size / 8) := by
  have key : ∀ (k : Nat) (mem : Memory),
      rt[k]? = some ⟨classOf v, BlakeWrapper.new L (classOf v).size⟩ →
      tr.filter (fun c => decide (c.target = some k)) = chunks.map (Call.update k) →
      (Runtime.step (Runtime.exec rt tr) (Call.digest k mem)).2 =
        Outcome.ok (Value.Buffer ⟨libDigest L (classOf v) chunks⟩) := by
    intro k mem hk hc
    have hg := Runtime.exec_get tr rt k _ hk
    rw [hc, Instance.foldl_update] at hg
    rw [Runtime.digest_outcome _ k _ mem hg]
    exact hash_eq_libDigest L (classOf v) chunks mem hfull
  refine ⟨(key h1 m1 hf1 hc1).trans (key h2 m2 hf2 hc2).symm, key h1 m1 hf1 hc1,
    key h2 m2 hf2 hc2, ?_⟩
  cases v <;> rfl

/-- Witness of C5: objects 0 and 1 of `sampleRuntime` (both `Blake256`) receive
the chunks [1,2] and [3], interleaved with each other and with calls on
object 2; their output buffers are allocated in different memory. -/
theorem same_input_same_digest_witness :
    storesDigest sampleLib (classOf .b256) [⟨[1, 2]⟩, ⟨[3]⟩] ∧
    (Runtime.step (Runtime.exec sampleRuntime
        [Call.update 0 ⟨[1, 2]⟩, Call.update 2 ⟨[9]⟩, Call.update 1 ⟨[1, 2]⟩,
         Call.digest 2 staleB, Call.update 1 ⟨[3]⟩, Call.update 0 ⟨[3]⟩])
        (Call.digest 0 staleA)).2 =
      (Runtime.step (Runtime.exec sampleRuntime
        [Call.update 0 ⟨[1, 2]⟩, Call.update 2 ⟨[9]⟩, Call.update 1 ⟨[1, 2]⟩,
         Call.digest 2 staleB, Call.update 1 ⟨[3]⟩, Call.update 0 ⟨[3]⟩])
        (Call.digest 1 staleB)).2 ∧
    (Runtime.step (Runtime.exec sampleRuntime
        [Call.update 0 ⟨[1, 2]⟩, Call.update 2 ⟨[9]⟩, Call.update 1 ⟨[1, 2]⟩,
         Call.digest 2 staleB, Call.update 1 ⟨[3]⟩, Call.update 0 ⟨[3]⟩])
        (Call.digest 0 staleA)).2 =
      Outcome.ok (Value.Buffer ⟨List.replicate 29 0 ++ [1, 2, 3]⟩) :=
  ⟨by decide,
   (same_input_same_digest sampleLib .b256 [⟨[1, 2]⟩, ⟨[3]⟩] sampleRuntime
      [Call.update 0 ⟨[1, 2]⟩, Call.update 2 ⟨[9]⟩, Call.update 1 ⟨[1, 2]⟩,
       Call.digest 2 staleB, Call.update 1 ⟨[3]⟩, Call.update 0 ⟨[3]⟩] 0 1 staleA staleB
      rfl rfl rfl rfl (by decide)).1,
   by decide⟩

/-- C7: a call made on object `h` leaves every other object `k` as it was
(same class, same state), whatever the classes of the two objects; the number
of objects is unchanged, and whatever is called afterwards, object `k` and the
digest it returns are the same as if the call on `h` had not been made. -/
theorem other_instance_unchanged (L : BlakeLib) (rt : Runtime L) (c : Call) (h k : Nat)
    (o : Instance L) (hc : c.target = some h) (hne : h ≠ k) (ho : rt[k]? = some o) :
    (Runtime.step rt c).1[k]? = some o ∧
    (Runtime.step rt c).1.length = rt.length ∧
    ((Runtime.step rt c).1[h]?).map Instance.cls = (rt[h]?).map Instance.cls ∧
    (∀ mem : Memory, (Runtime.step (Runtime.step rt c).1 (Call.digest k mem)).2 =
      (Runtime.step rt (Call.digest k mem)).2) ∧
    (∀ (tr : List Call) (mem : Memory),
      (Runtime.exec (Runtime.step rt c).1 tr)[k]? = (Runtime.exec rt tr)[k]? ∧
      (Runtime.step (Runtime.exec (Runtime.step rt c).1 tr) (Call.digest k mem)).2 =
        (Runtime.step (Runtime.exec rt tr) (Call.digest k mem)).2) := by
  have hck : c.target ≠ some k := by
    rw [hc]
    intro e
    exact hne (Option.some.inj e)
  have h1 := Runtime.step_get_other rt c k o hck ho
  have hlen : (Runtime.step rt c).1.length = rt.length := by
    cases c with
    | create name => simp [Call.target] at hc
    | update j buf =>
      simp only [Runtime.step]
      split <;> simp
    | digest j mem =>
      simp only [Runtime.step]
      split <;> simp
  have hcls : ((Runtime.step rt c).1[h]?).map Instance.cls = (rt[h]?).map Instance.cls := by
    cases hh : rt[h]? with
    | none =>
      cases c with
      | create name => simp [Call.target] at hc
      | update j buf =>
        have he : j = h := by simpa [Call.target] using hc
        subst he
        simp only [Runtime.step, hh]
      | digest j mem =>
        have he : j = h := by simpa [Call.target] using hc
        subst he
        simp only [Runtime.step, hh]
    | some oh =>
      rw [Runtime.step_get_self rt c h oh hc hh]
      cases c with
      | create name => rfl
      | update j buf => rfl
      | digest j mem => rfl
  refine ⟨h1, hlen, hcls, ?_, ?_⟩
  · intro mem
    rw [Runtime.digest_outcome _ k o mem h1, Runtime.digest_outcome _ k o mem ho]
  · intro tr mem
    have e1 := Runtime.exec_get tr (Runtime.step rt c).1 k o h1
    have e2 := Runtime.exec_get tr rt k o ho
    refine ⟨e1.trans e2.symm, ?_⟩
    rw [Runtime.digest_outcome _ k _ mem e1, Runtime.digest_outcome _ k _ mem e2]

/-- Witness of C7: a `digest` on object 0 (`Blake256`) of `sampleRuntime`
leaves object 2 (`Blake512`) as constructed. -/
theorem other_instance_unchanged_witness :
    sampleState (Runtime.step sampleRuntime (Call.digest 0 staleA)).1 2 = some [] ∧
    sampleState (Runtime.step sampleRuntime (Call.digest 0 staleA)).1 0 = some [0x80] ∧
    (Runtime.step sampleRuntime (Call.digest 0 staleA)).1[2]? =
      some ⟨classOf .b512, BlakeWrapper.new sampleLib (classOf .b512).size⟩ :=
  ⟨by decide, by decide,
   (other_instance_unchanged sampleLib sampleRuntime (Call.digest 0 staleA) 0 2
      ⟨classOf .b512, BlakeWrapper.new sampleLib (classOf .b512).size⟩ rfl (by decide) rfl).1⟩

/-- C9: one `update` call on an object makes its state the result of the
external update routine of the object's variant applied to the object's own
state, all the bytes of the argument buffer and its full length; the call
returns `Undefined`, cannot fail, and changes nothing else. -/
theorem update_forwards (L : BlakeLib) (rt : Runtime L) (h : Nat) (o : Instance L)
    (b : Buffer) (ho : rt[h]? = some o) :
    Runtime.step rt (Call.update h b) =
      (rt.set h ⟨o.cls, ⟨L.blake_update o.cls.size o.self.state b.bytes b.bytes.length⟩⟩,
        Outcome.ok Value.Undefined) ∧
    (Runtime.step rt (Call.update h b)).1[h]? =
      some ⟨o.cls, ⟨L.blake_update o.cls.size o.self.state b.bytes b.bytes.length⟩⟩ ∧
    o.self.Update b =
      (⟨L.blake_update o.cls.size o.self.state b.bytes b.bytes.length⟩,
        Outcome.ok Value.Undefined) ∧
    (∀ e : BlakeError, (Runtime.step rt (Call.update h b)).2 ≠ Outcome.error e) := by
  have hk : h < rt.length := by
    rcases List.getElem?_eq_some_iff.mp ho with ⟨hlt, _⟩
    exact hlt
  have hs : Runtime.step rt (Call.update h b) =
      (rt.set h ⟨o.cls, ⟨L.blake_update o.cls.size o.self.state b.bytes b.bytes.length⟩⟩,
        Outcome.ok Value.Undefined) := by
    simp only [Runtime.step, ho, BlakeWrapper.Update, Buffer.Data, Buffer.Length]
  refine ⟨hs, ?_, rfl, ?_⟩
  · rw [hs]
    exact List.getElem?_set_self hk
  · intro e
    rw [hs]
    exact fun hh => Outcome.noConfusion hh

/-- Witness of C9: the empty buffer and a three-byte buffer on object 0 of
`sampleRuntime`. -/
theorem update_forwards_witness :
    sampleState sampleRuntime 0 = some [] ∧
    (Runtime.step sampleRuntime (Call.update 0 ⟨[]⟩)).2 = Outcome.ok Value.Undefined ∧
    sampleState (Runtime.step sampleRuntime (Call.update 0 ⟨[]⟩)).1 0 = some [] ∧
    sampleState (Runtime.step sampleRuntime (Call.update 0 ⟨[1, 2, 3]⟩)).1 0 = some [1, 2, 3] ∧
    Runtime.step sampleRuntime (Call.update 0 ⟨[1, 2, 3]⟩) =
      (sampleRuntime.set 0 ⟨classOf .b256, ⟨([1, 2, 3] : List Byte)⟩⟩,
        Outcome.ok Value.Undefined) :=
  ⟨by decide, by decide, by decide, by decide,
   (update_forwards sampleLib sampleRuntime 0
      ⟨classOf .b256, BlakeWrapper.new sampleLib (classOf .b256).size⟩ ⟨[1, 2, 3]⟩ rfl).1⟩


theorem Runtime.update_outcome {L : BlakeLib} (rt : Runtime L) (k : Nat) (o : Instance L)
    (b : Buffer) (ho : rt[k]? = some o) :
    (Runtime.step rt (Call.update k b)).2 = Outcome.ok Value.Undefined := by
  simp only [Runtime.step, ho, BlakeWrapper.Update]

/-- C10: `digest` runs the external final routine on the state stored in the
object: afterwards the object holds exactly the state that routine left (no
re-initialisation, no flag), the call returns the output buffer and cannot
fail, and a later `update` or `digest` on the object is applied to that
state. -/
theorem digest_on_live_state (L : BlakeLib) (rt : Runtime L) (h : Nat) (o : Instance L)
    (b : Buffer) (mem mem2 : Memory) (ho : rt[h]? = some o) :
    (Runtime.step rt (Call.digest h mem)).1[h]? =
      some ⟨o.cls, ⟨(L.blake_final o.cls.size o.self.state).1⟩⟩ ∧
    (Runtime.step rt (Call.digest h mem)).2 =
      Outcome.ok (Value.Buffer
        ((Buffer.New mem o.cls.out_size).store (L.blake_final o.cls.size o.self.state).2)) ∧
    (∀ e : BlakeError, (Runtime.step rt (Call.digest h mem)).2 ≠ Outcome.error e) ∧
    (Runtime.step (Runtime.step rt (Call.digest h mem)).1 (Call.update h b)).1[h]? =
      some ⟨o.cls, ⟨L.blake_update o.cls.size (L.blake_final o.cls.size o.self.state).1
        b.bytes b.bytes.length⟩⟩ ∧
    (Runtime.step (Runtime.step rt (Call.digest h mem)).1 (Call.digest h mem2)).1[h]? =
      some ⟨o.cls, ⟨(L.blake_final o.cls.size
        (L.blake_final o.cls.size o.self.state).1).1⟩⟩ ∧
    (Runtime.step (Runtime.step rt (Call.digest h mem)).1 (Call.digest h mem2)).2 =
      Outcome.ok (Value.Buffer ((Buffer.New mem2 o.cls.out_size).store
        (L.blake_final o.cls.size (L.blake_final o.cls.size o.self.state).1).2)) := by
  have h1 : (Runtime.step rt (Call.digest h mem)).1[h]? =
      some ⟨o.cls, ⟨(L.blake_final o.cls.size o.self.state).1⟩⟩ :=
    Runtime.step_get_self rt (Call.digest h mem) h o rfl ho
  have h2 : (Runtime.step rt (Call.digest h mem)).2 =
      Outcome.ok (Value.Buffer
        ((Buffer.New mem o.cls.out_size).store (L.blake_final o.cls.size o.self.state).2)) :=
    Runtime.digest_outcome rt h o mem ho
  refine ⟨h1, h2, ?_, ?_, ?_, ?_⟩
  · intro e
    rw [h2]
    exact fun hh => Outcome.noConfusion hh
  · exact Runtime.step_get_self _ (Call.update h b) h _ rfl h1
  · exact Runtime.step_get_self _ (Call.digest h mem2) h _ rfl h1
  · exact Runtime.digest_outcome _ h _ mem2 h1

/-- Witness of C10: `digest` on object 0 of `sampleRuntime` after an `update`
with [1,2,3]; the later calls see the state `blake_final` left. -/
theorem digest_on_live_state_witness :
    sampleState (Runtime.exec sampleRuntime [Call.update 0 ⟨[1, 2, 3]⟩]) 0 = some [1, 2, 3] ∧
    sampleState (Runtime.exec sampleRuntime
      [Call.update 0 ⟨[1, 2, 3]⟩, Call.digest 0 staleA]) 0 = some [1, 2, 3, 0x80] ∧
    sampleState (Runtime.exec sampleRuntime
      [Call.update 0 ⟨[1, 2, 3]⟩, Call.digest 0 staleA, Call.update 0 ⟨[7]⟩]) 0 =
      some [1, 2, 3, 0x80, 7] ∧
    (Runtime.step (Runtime.exec sampleRuntime [Call.update 0 ⟨[1, 2, 3]⟩])
        (Call.digest 0 staleA)).2 =
      Outcome.ok (Value.Buffer ((Buffer.New staleA 32).store (lastBytes 32 [1, 2, 3]))) :=
  ⟨by decide, by decide, by decide,
   (digest_on_live_state sampleLib (Runtime.exec sampleRuntime [Call.update 0 ⟨[1, 2, 3]⟩]) 0
      ⟨classOf .b256, ⟨([1, 2, 3] : List Byte)⟩⟩ ⟨[7]⟩ staleA staleB rfl).2.1⟩

/-- C3, as stated, fails: on object 0 of `sampleRuntime` the second `digest`
returns a buffer instead of failing with `InvalidState`. -/
theorem second_digest_counterexample :
    Runtime.outcomes sampleRuntime
        [Call.update 0 ⟨[1, 2, 3]⟩, Call.digest 0 staleA, Call.digest 0 staleB] =
      [Outcome.ok Value.Undefined,
       Outcome.ok (Value.Buffer ⟨List.replicate 29 0 ++ [1, 2, 3]⟩),
       Outcome.ok (Value.Buffer ⟨List.replicate 28 0 ++ [1, 2, 3, 0x80]⟩)] ∧
    (Runtime.outcomes sampleRuntime
        [Call.update 0 ⟨[1, 2, 3]⟩, Call.digest 0 staleA, Call.digest 0 staleB])[2]? ≠
      some (Outcome.error BlakeError.InvalidState) := by
  decide

/-- C3, amended: a second `digest` on the same object does not fail; it
returns a buffer of `out_size` bytes holding what the external final routine
stores when run on the state the first call left, and the outcome of the
first call is the same whether or not the second call is made. -/
theorem second_digest_returns (L : BlakeLib) (rt : Runtime L) (h : Nat) (o : Instance L)
    (m1 m2 : Memory) (ho : rt[h]? = some o) :
    Runtime.outcomes rt [Call.digest h m1, Call.digest h m2] =
      [Outcome.ok (Value.Buffer
         ((Buffer.New m1 o.cls.out_size).store (L.blake_final o.cls.size o.self.state).2)),
       Outcome.ok (Value.Buffer ((Buffer.New m2 o.cls.out_size).store
         (L.blake_final o.cls.size (L.blake_final o.cls.size o.self.state).1).2))] ∧
    Runtime.outcomes rt [Call.digest h m1] =
      [Outcome.ok (Value.Buffer
         ((Buffer.New m1 o.cls.out_size).store (L.blake_final o.cls.size o.self.state).2))] ∧
    ((Buffer.New m2 o.cls.out_size).store
      (L.blake_final o.cls.size (L.blake_final o.cls.size o.self.state).1).2).Length =
        o.cls.out_size := by
  have h1 : (Runtime.step rt (Call.digest h m1)).1[h]? =
      some ⟨o.cls, ⟨(L.blake_final o.cls.size o.self.state).1⟩⟩ :=
    Runtime.step_get_self rt (Call.digest h m1) h o rfl ho
  refine ⟨?_, ?_, ?_⟩
  · simp only [Runtime.outcomes]
    rw [Runtime.digest_outcome rt h o m1 ho, Runtime.digest_outcome _ h _ m2 h1]
    rfl
  · simp only [Runtime.outcomes]
    rw [Runtime.digest_outcome rt h o m1 ho]
    rfl
  · rw [Buffer.Length_store, Buffer.Length_New]

/-- Witness of C3, amended: two `digest` calls on object 0 of `sampleRuntime`. -/
theorem second_digest_returns_witness :
    Runtime.outcomes sampleRuntime [Call.digest 0 staleA, Call.digest 0 staleB] =
      [Outcome.ok (Value.Buffer ((Buffer.New staleA 32).store (lastBytes 32 []))),
       Outcome.ok (Value.Buffer ((Buffer.New staleB 32).store (lastBytes 32 [0x80])))] :=
  (second_digest_returns sampleLib sampleRuntime 0
    ⟨classOf .b256, BlakeWrapper.new sampleLib (classOf .b256).size⟩ staleA staleB rfl).1

/-- C4, as stated, fails: on object 0 of `sampleRuntime`, an `update` made
after `digest` returns `Undefined` instead of failing with `InvalidState`, and
the state of the object changes. -/
theorem update_after_digest_counterexample :
    Runtime.outcomes sampleRuntime [Call.digest 0 staleA, Call.update 0 ⟨[7]⟩] =
      [Outcome.ok (Value.Buffer ⟨List.replicate 32 0⟩), Outcome.ok Value.Undefined] ∧
    (Runtime.outcomes sampleRuntime [Call.digest 0 staleA, Call.update 0 ⟨[7]⟩])[1]? ≠
      some (Outcome.error BlakeError.InvalidState) ∧
    sampleState (Runtime.exec sampleRuntime [Call.digest 0 staleA]) 0 = some [0x80] ∧
    sampleState (Runtime.exec sampleRuntime [Call.digest 0 staleA, Call.update 0 ⟨[7]⟩]) 0 =
      some [0x80, 7] := by
  decide

/-- C4, amended: an `update` made after `digest` does not fail; it returns
`Undefined`, and the state of the object becomes the result of the external
update routine applied to the state the external final routine left, all the
bytes of the buffer and its full length. -/
theorem update_after_digest_forwards (L : BlakeLib) (rt : Runtime L) (h : Nat)
    (o : Instance L) (b : Buffer) (mem : Memory) (ho : rt[h]? = some o) :
    Runtime.outcomes rt [Call.digest h mem, Call.update h b] =
      [Outcome.ok (Value.Buffer
         ((Buffer.New mem o.cls.out_size).store (L.blake_final o.cls.size o.self.state).2)),
       Outcome.ok Value.Undefined] ∧
    (Runtime.exec rt [Call.digest h mem, Call.update h b])[h]? =
      some ⟨o.cls, ⟨L.blake_update o.cls.size (L.blake_final o.cls.size o.self.state).1
        b.bytes b.bytes.length⟩⟩ := by
  have h1 : (Runtime.step rt (Call.digest h mem)).1[h]? =
      some ⟨o.cls, ⟨(L.blake_final o.cls.size o.self.state).1⟩⟩ :=
    Runtime.step_get_self rt (Call.digest h mem) h o rfl ho
  refine ⟨?_, ?_⟩
  · simp only [Runtime.outcomes]
    rw [Runtime.digest_outcome rt h o mem ho, Runtime.update_outcome _ h _ b h1]
    rfl
  · simp only [Runtime.exec]
    exact Runtime.step_get_self _ (Call.update h b) h _ rfl h1

/-- Witness of C4, amended: `digest` then `update` with [7] on object 2
(`Blake512`) of `sampleRuntime`. -/
theorem update_after_digest_forwards_witness :
    Runtime.outcomes sampleRuntime [Call.digest 2 staleB, Call.update 2 ⟨[7]⟩] =
      [Outcome.ok (Value.Buffer ((Buffer.New staleB 64).store (lastBytes 64 []))),
       Outcome.ok Value.Undefined] :=
  (update_after_digest_forwards sampleLib sampleRuntime 2
    ⟨classOf .b512, BlakeWrapper.new sampleLib (classOf .b512).size⟩ ⟨[7]⟩ staleB rfl).1

end BlakeHash
